import Mathlib

/-!
Verification of the `code-challenge` repository against its specification.

The development shallowly embeds three parts of the repository:

* `src/problem4/sum.ts` — three implementations of `sum_to_n` over
  JavaScript numbers, modelled with exact rational arithmetic (the source
  documents the assumption that all results fit in the safe-integer range,
  where IEEE doubles behave exactly like the rationals used here).
* `src/problem5` — the books CRUD service; the `GET /books/:id` handler.
* the realtime leaderboard module, which exists in the repository only as
  design documents (the problem-6 specification and the scoreboard API
  specification); its operations are modelled from the specification text.
-/

namespace Problem4

/-- A JavaScript number as far as `sum.ts` observes it: either a finite
value (modelled exactly as a rational) or one of the non-finite values
`NaN`, `Infinity`, `-Infinity`, for which `Number.isFinite` is `false`. -/
inductive JSNum where
  | num (q : ℚ)
  | nan
  | posInf
  | negInf
  deriving DecidableEq

/-- `Number.isFinite` from the guard at the top of each implementation. -/
def JSNum.isFinite : JSNum → Bool
  | .num _ => true
  | _ => false

/-- The accumulating loop of `sum_to_n_a`: `for (let i = 1; i <= upto; i++) sum += i`. -/
def loopSum : ℕ → ℕ
  | 0 => 0
  | k + 1 => loopSum k + (k + 1)

/-- The inner `helper` of `sum_to_n_b`:
`helper(k) = 0` for `k <= 0`, `1` for `k = 1`, else `k + helper(k-1)`.
It is only ever applied to the non-negative integer `upto = Math.floor(n)`,
so it is embedded as a function on `ℕ`. -/
def helper : ℕ → ℕ
  | 0 => 0
  | 1 => 1
  | k + 2 => (k + 2) + helper (k + 1)

/-- `sum_to_n_a` from `src/problem4/sum.ts`: throws `TypeError` on a
non-finite argument, returns `0` for `n ≤ 0`, and otherwise sums
`1..Math.floor(n)` with a loop. -/
def sum_to_n_a : JSNum → Except String ℚ
  | .num q =>
      if q ≤ 0 then .ok 0
      else .ok (loopSum (⌊q⌋.toNat) : ℚ)
  | _ => .error "n must be a finite number"

/-- `sum_to_n_b` from `src/problem4/sum.ts`: same guards, recursive `helper`. -/
def sum_to_n_b : JSNum → Except String ℚ
  | .num q =>
      if q ≤ 0 then .ok 0
      else .ok (helper (⌊q⌋.toNat) : ℚ)
  | _ => .error "n must be a finite number"

/-- `sum_to_n_c` from `src/problem4/sum.ts`: same guards, closed formula
`upto * (upto + 1) / 2`. -/
def sum_to_n_c : JSNum → Except String ℚ
  | .num q =>
      if q ≤ 0 then .ok 0
      else .ok ((⌊q⌋ : ℚ) * ((⌊q⌋ : ℚ) + 1) / 2)
  | _ => .error "n must be a finite number"

/-- Whether a call threw (`TypeError` in the source). -/
def threw : Except String ℚ → Bool
  | .error _ => true
  | .ok _ => false

end Problem4

namespace Problem5

/-- A `Book` row, fields as in the Prisma model mirrored by the OpenAPI
`Book` schema (timestamps and dates modelled as integers). -/
structure Book where
  id : String
  title : String
  author : String
  description : Option String
  publishedAt : Option ℤ
  pages : Option ℤ
  isbn : Option String
  createdAt : ℤ
  updatedAt : ℤ
  deriving DecidableEq

/-- The book store: the rows of the `book` table. -/
def Store := List Book

/-- `BookService.getById`: `prisma.book.findUnique({ where: { id } })` —
the unique row whose `id` matches, if any. -/
def getById (db : Store) (i : String) : Option Book :=
  db.find? (fun b => b.id = i)

/-- Response bodies the `getBookHandler` can produce. -/
inductive Body where
  | book (b : Book)
  | message (s : String)
  deriving DecidableEq

/-- An HTTP response: status code plus JSON body. -/
structure Response where
  status : ℕ
  body : Body
  deriving DecidableEq

/-- `getBookHandler` from `booksController.ts`: looks the id up via
`bookService.getById`; on `null` responds `404 { message: 'Book not found' }`,
otherwise `200` with the book. The handler also returns the store it leaves
behind: the lookup is a pure read, so the store passes through. -/
def getBookHandler (db : Store) (i : String) : Response × Store :=
  match getById db i with
  | none => (⟨404, .message "Book not found"⟩, db)
  | some b => (⟨200, .book b⟩, db)

end Problem5

namespace Leaderboard

/-- An accepted `ScoreEvent` as the Score Store Adapter sees it: the
time-ordered unique `eventId` (derived from the action-token nonce), the
`userId` whose score it increments, and the integer `delta`.  Audit-only
fields (`actionType`, timestamps, `clientMetadata`) are not modelled. -/
structure SEvent where
  eventId : String
  userId : String
  delta : ℤ
  deriving DecidableEq

/-- Reading a `user_scores` row: absent users read as score `0` (rows are
created lazily with score 0 on first event). -/
def getScore : List (String × ℤ) → String → ℤ
  | [], _ => 0
  | (k, v) :: rest, u => if k = u then v else getScore rest u

/-- The upsert-and-increment of `user_scores`:
`INSERT ... ON CONFLICT DO UPDATE score = score + delta` — create the row
with score `0` if absent, then add `delta`. -/
def bumpScore : List (String × ℤ) → String → ℤ → List (String × ℤ)
  | [], u, d => [(u, d)]
  | (k, v) :: rest, u, d =>
      if k = u then (k, v + d) :: rest else (k, v) :: bumpScore rest u d

/-- The authoritative store: `user_scores` rows plus the primary keys of the
append-only `score_events` table (the second idempotency layer). -/
structure Store where
  rows : List (String × ℤ)
  eventIds : List String
  deriving DecidableEq

def Store.init : Store := ⟨[], []⟩

/-- Modelled from the spec: `applyDelta(userId, delta, eventId)` of the
Score Store Adapter (no implementation exists in the repository; §4.2 of the
design document specifies it).  In one atomic transaction it upserts the
`UserScore` row, appends the `ScoreEvent` keyed by `eventId`, and increments
the score; if the `eventId` already exists it returns `applied = false`
without mutating anything. -/
def applyDelta (s : Store) (e : SEvent) : ℤ × Bool × Store :=
  if e.eventId ∈ s.eventIds then
    (getScore s.rows e.userId, false, s)
  else
    let rows := bumpScore s.rows e.userId e.delta
    (getScore rows e.userId, true, ⟨rows, e.eventId :: s.eventIds⟩)

/-- Sequential application of a list of accepted events (one interleaving of
the concurrent arrivals; the store transaction serializes them). -/
def processAll (s : Store) : List SEvent → Store
  | [] => s
  | e :: rest => processAll (applyDelta s e).2.2 rest

/-- `UserScore.score` of a user in a store state. -/
def userScore (s : Store) (u : String) : ℤ := getScore s.rows u

/-- The subsequence of events that actually mutate the store: the first
occurrence of each `eventId` not already consumed in `seen`. -/
def appliedEvents (seen : List String) : List SEvent → List SEvent
  | [] => []
  | e :: rest =>
    if e.eventId ∈ seen then appliedEvents seen rest
    else e :: appliedEvents (e.eventId :: seen) rest

/-- Sum of the deltas of the events belonging to user `u`. -/
def sumDeltasFor (u : String) (l : List SEvent) : ℤ :=
  ((l.filter (fun e => e.userId = u)).map (fun e => e.delta)).sum

/-- A batch of events is id-coherent when the `eventId` determines the
event: two events of the batch with the same id are the same event (ids are
unique tokens, and a resubmission replays the same event verbatim). -/
def IdCoherent (l : List SEvent) : Prop :=
  ∀ e ∈ l, ∀ e2 ∈ l, e.eventId = e2.eventId → e = e2

/-- Configuration of the ingestion pipeline: the configurable delta cap
(`1000000` in the SQL `CHECK (delta > 0 AND delta < 1000000)`), the ±5s
clock-skew leeway for token expiry, and the per-user rate limit. -/
structure Config where
  cap : ℤ
  leeway : ℤ
  rateLimit : ℕ
  deriving DecidableEq

/-- A signed proof-of-action token: subject, single-use nonce (the action
identifier), expiry, per-action delta cap, and key version.  `sigValid`
records the outcome of the HMAC signature verification against the token's
key version (the cryptography itself is outside the model). -/
structure Token where
  sub : String
  nonce : String
  exp : ℤ
  deltaCap : ℤ
  sigValid : Bool
  deriving DecidableEq

/-- An ingestion request: the externally verified caller identity, the
requested delta, and the proof-of-action token. -/
structure Request where
  caller : String
  delta : ℤ
  token : Token
  deriving DecidableEq

/-- Pipeline state: the Idempotency Ledger (consumed action identifier →
the `newScore` computed when it was first applied), the authoritative
store, and the per-user count of consumed rate-limit tokens (bucket refill
over time is not modelled). -/
structure SysState where
  ledger : List (String × ℤ)
  store : Store
  used : List (String × ℕ)
  deriving DecidableEq

/-- Nonces consumed so far, with the result recorded for replays. -/
def lookupLedger (l : List (String × ℤ)) (n : String) : Option ℤ :=
  (l.find? (fun p => p.1 = n)).map (fun p => p.2)

def getCount : List (String × ℕ) → String → ℕ
  | [], _ => 0
  | (k, v) :: rest, u => if k = u then v else getCount rest u

def bumpCount : List (String × ℕ) → String → List (String × ℕ)
  | [], u => [(u, 1)]
  | (k, v) :: rest, u =>
      if k = u then (k, v + 1) :: rest else (k, v) :: bumpCount rest u

/-- Outcome of a submission: `accepted` hands off the created event,
`duplicate` is the distinguished idempotent-success outcome carrying the
previously computed result, and the three rejection reasons mirror the
error taxonomy (`ValidationError`, `AuthError`, `RateLimited`). -/
inductive Outcome where
  | accepted (eventId : String) (newScore : ℤ)
  | duplicate (newScore : ℤ)
  | validationError
  | authError
  | rateLimited
  deriving DecidableEq

/-- Rejections surfaced as request failures (everything except acceptance
and the idempotent duplicate success). -/
def Outcome.isReject : Outcome → Bool
  | .validationError => true
  | .authError => true
  | .rateLimited => true
  | _ => false

/-- Modelled from the spec: `admit` plus the downstream hand-off of the
Score Event Pipeline (no implementation exists in the repository; §4.1 of
the design document specifies the checks and their order).  Checks
short-circuit on first failure: (a) signature valid and token not expired
within the leeway; (b) token subject matches the caller; (c) the delta is
in bounds (`0 < delta < cap`, the SQL `CHECK`) and at most the token's
delta cap; (d) the action identifier is not already consumed — if it is,
the distinguished `duplicate` outcome replays the recorded result; (e) the
rate limit is not exceeded.  On success it atomically records the
identifier with the computed result and applies the delta through the
Score Store Adapter, the event id derived from the token nonce. -/
def submit (cfg : Config) (now : ℤ) (req : Request) (s : SysState) :
    Outcome × SysState :=
  if req.token.sigValid = true then
    if now ≤ req.token.exp + cfg.leeway then
      if req.token.sub = req.caller then
        if 0 < req.delta ∧ req.delta < cfg.cap then
          if req.delta ≤ req.token.deltaCap then
            match lookupLedger s.ledger req.token.nonce with
            | some prev => (.duplicate prev, s)
            | none =>
              if getCount s.used req.caller < cfg.rateLimit then
                let r := applyDelta s.store ⟨req.token.nonce, req.caller, req.delta⟩
                (.accepted req.token.nonce r.1,
                  ⟨(req.token.nonce, r.1) :: s.ledger, r.2.2,
                    bumpCount s.used req.caller⟩)
              else (.rateLimited, s)
          else (.validationError, s)
        else (.validationError, s)
      else (.authError, s)
    else (.authError, s)
  else (.authError, s)

/-- A `TopKSnapshot`: the monotonically increasing `version` and the
ordered sequence of up to K entries, the rank of an entry being its
position (first entry is rank 1).  `generatedAt` is wall-clock metadata and
is not modelled. -/
structure TopKSnapshot where
  version : ℕ
  entries : List (String × ℤ)
  deriving DecidableEq

/-- Ranking order for snapshot entries: score descending; ties broken
deterministically (the design fixes earliest-`updatedAt`-wins; update times
are not modelled, so the userId stands in as the deterministic key). -/
def entryLE (a b : String × ℤ) : Prop :=
  b.2 < a.2 ∨ (a.2 = b.2 ∧ a.1 ≤ b.1)

instance : DecidableRel entryLE := fun a b => by
  unfold entryLE; exact inferInstance

/-- The ranked top K of the known `(userId, score)` pairs. -/
def topK (K : ℕ) (scores : List (String × ℤ)) : List (String × ℤ) :=
  (List.insertionSort entryLE scores).take K

/-- Write-through of an applied `(userId, newScore)` into the cache's score
table (upsert, overwrite with the authoritative new score). -/
def setScore : List (String × ℤ) → String → ℤ → List (String × ℤ)
  | [], u, v => [(u, v)]
  | (k, w) :: rest, u, v =>
      if k = u then (k, v) :: rest else (k, w) :: setScore rest u v

/-- The Top-K cache: all known scores plus the current immutable snapshot. -/
structure CacheState where
  scores : List (String × ℤ)
  snap : TopKSnapshot
  deriving DecidableEq

/-- Modelled from the spec: `onApplied(userId, newScore)` of the Top-K
Cache (no implementation exists in the repository; §4.3 of the design
document specifies it).  Updates the user's position; if the resulting top
K differs from the current snapshot it bumps `version` by one, installs and
emits a new immutable snapshot, otherwise it keeps the existing snapshot
and emits nothing.  The single emission point is the serialized version
bump the concurrency model requires. -/
def cacheStep (K : ℕ) (st : CacheState) (upd : String × ℤ) :
    CacheState × Option TopKSnapshot :=
  let scores := setScore st.scores upd.1 upd.2
  let newTop := topK K scores
  if newTop = st.snap.entries then
    (⟨scores, st.snap⟩, none)
  else
    let snap : TopKSnapshot := ⟨st.snap.version + 1, newTop⟩
    (⟨scores, snap⟩, some snap)

/-- Serialized processing of a sequence of applied updates, collecting the
snapshots emitted into the broadcast stream towards the Diff Engine. -/
def cacheRun (K : ℕ) (st : CacheState) :
    List (String × ℤ) → CacheState × List TopKSnapshot
  | [] => (st, [])
  | upd :: rest =>
    let step := cacheStep K st upd
    let tail := cacheRun K step.1 rest
    (tail.1, step.2.toList ++ tail.2)

/-- Annotate the ordered entries of a snapshot with their ranks, starting
from `k`. -/
def zipRanksAux (k : ℕ) : List (String × ℤ) → List (ℕ × String × ℤ)
  | [] => []
  | e :: rest => (k, e.1, e.2) :: zipRanksAux (k + 1) rest

/-- The `(rank, userId, score)` tuples of a ranked entry list (first entry
has rank 1). -/
def zipRanks (l : List (String × ℤ)) : List (ℕ × String × ℤ) :=
  zipRanksAux 1 l

/-- The members (userIds) of a snapshot. -/
def snapUsers (s : TopKSnapshot) : List String := s.entries.map Prod.fst

/-- The rank a user holds in a snapshot, if present. -/
def rankOf (s : TopKSnapshot) (u : String) : Option ℕ :=
  ((zipRanks s.entries).find? (fun c => decide (c.2.1 = u))).map (fun c => c.1)

/-- The score a user holds in a snapshot, if present. -/
def scoreOf (s : TopKSnapshot) (u : String) : Option ℤ :=
  ((zipRanks s.entries).find? (fun c => decide (c.2.1 = u))).map (fun c => c.2.2)

/-- A `Diff` between consecutive snapshots: `removed` members, `added`
entries with their new ranks, and `moved` members with old and new rank
(no score field, exactly as the data model specifies). -/
structure Diff where
  fromVersion : ℕ
  toVersion : ℕ
  removed : List String
  added : List (ℕ × String × ℤ)
  moved : List (String × ℕ × ℕ)
  deriving DecidableEq

/-- The `moved` record a current entry contributes: present in `prev` with
a different rank. -/
def movedOf (prev : TopKSnapshot) (c : ℕ × String × ℤ) :
    Option (String × ℕ × ℕ) :=
  match rankOf prev c.2.1 with
  | some r => if r ≠ c.1 then some (c.2.1, r, c.1) else none
  | none => none

/-- Modelled from the spec: `diff(previous, current)` of the Diff Engine
(no implementation exists in the repository; §4.4 of the design document
specifies it).  Set difference on membership gives `removed` and `added`
(with their new ranks); members present in both contribute to `moved` only
when their rank actually changed.  When the versions coincide it returns
an empty Diff, the no-broadcast-needed signal. -/
def diff (prev cur : TopKSnapshot) : Diff :=
  if prev.version = cur.version then
    ⟨prev.version, cur.version, [], [], []⟩
  else
    { fromVersion := prev.version
      toVersion := cur.version
      removed := (snapUsers prev).filter (fun u => decide (u ∉ snapUsers cur))
      added := (zipRanks cur.entries).filter
        (fun c => decide (c.2.1 ∉ snapUsers prev))
      moved := (zipRanks cur.entries).filterMap (movedOf prev) }

/-- Ordering of rank-annotated entries by rank. -/
def rankLE (a b : ℕ × String × ℤ) : Prop := a.1 ≤ b.1

/-- Strict ordering of rank-annotated entries by rank. -/
def rankLT (a b : ℕ × String × ℤ) : Prop := a.1 < b.1

instance : DecidableRel rankLE := fun a b => by
  unfold rankLE; exact inferInstance

instance : IsTotal (ℕ × String × ℤ) rankLE :=
  ⟨fun a b => Nat.le_total a.1 b.1⟩

instance : IsTrans (ℕ × String × ℤ) rankLE :=
  ⟨fun _ _ _ => Nat.le_trans⟩

instance : IsAntisymm (ℕ × String × ℤ) rankLT :=
  ⟨fun _ _ h1 h2 => absurd h1 (Nat.lt_asymm h2)⟩

/-- Give a retained entry its new rank if the Diff moved it. -/
def rerankEntry (moved : List (String × ℕ × ℕ)) (e : ℕ × String × ℤ) :
    ℕ × String × ℤ :=
  match moved.find? (fun m => decide (m.1 = e.2.1)) with
  | some m => (m.2.2, e.2.1, e.2.2)
  | none => e

/-- Modelled from the spec: applying a `Diff` to the snapshot it was
computed from (the specification states the round-trip invariant but gives
no algorithm, so the application is the evident one determined by the Diff
fields).  Members listed in `removed` are dropped, members listed in
`moved` take their new rank, `added` entries come in at their given ranks,
and the resulting entries are ordered by rank; retained members keep the
scores recorded in the old snapshot, the only scores available. -/
def applyDiff (snap : TopKSnapshot) (d : Diff) : TopKSnapshot :=
  ⟨d.toVersion,
    (List.insertionSort rankLE
        (((zipRanks snap.entries).filter
            (fun c => decide (c.2.1 ∉ d.removed))).map (rerankEntry d.moved) ++
          d.added)).map (fun c => (c.2.1, c.2.2))⟩

/-- A Diff carrying no change at all. -/
def Diff.isEmpty (d : Diff) : Bool :=
  d.removed.isEmpty && d.added.isEmpty && d.moved.isEmpty

end Leaderboard

namespace Problem4

theorem helper_eq_loopSum : ∀ k : ℕ, helper k = loopSum k := by
  intro k
  induction k with
  | zero => rfl
  | succ n ih =>
    match n, ih with
    | 0, _ => rfl
    | m + 1, ih => simp [helper, loopSum] at ih ⊢; omega

theorem loopSum_closed (k : ℕ) : (loopSum k : ℚ) = (k : ℚ) * ((k : ℚ) + 1) / 2 := by
  induction k with
  | zero => simp [loopSum]
  | succ n ih =>
    simp only [loopSum]
    push_cast
    rw [ih]
    ring

end Problem4

namespace Leaderboard

theorem getScore_bumpScore (rows : List (String × ℤ)) (u w : String) (d : ℤ) :
    getScore (bumpScore rows u d) w =
      getScore rows w + (if u = w then d else 0) := by
  induction rows with
  | nil =>
    by_cases h : u = w <;> simp [bumpScore, getScore, h]
  | cons p rest ih =>
    obtain ⟨k, v⟩ := p
    by_cases hk : k = u
    · subst hk
      by_cases hw : k = w <;> simp [bumpScore, getScore, hw]
    · by_cases hw : k = w
      · subst hw
        have : ¬ u = k := fun h => hk h.symm
        simp [bumpScore, getScore, hk, this]
      · simp [bumpScore, getScore, hk, hw, ih]

theorem userScore_processAll (l : List SEvent) :
    ∀ (s : Store) (u : String),
      userScore (processAll s l) u =
        userScore s u + sumDeltasFor u (appliedEvents s.eventIds l) := by
  induction l with
  | nil => intro s u; simp [processAll, appliedEvents, sumDeltasFor]
  | cons e rest ih =>
    intro s u
    by_cases hmem : e.eventId ∈ s.eventIds
    · simp only [processAll, applyDelta, hmem, if_pos, appliedEvents, if_true]
      exact ih s u
    · simp only [processAll, applyDelta, hmem, if_neg, if_false, appliedEvents]
      have hstep := ih ⟨bumpScore s.rows e.userId e.delta, e.eventId :: s.eventIds⟩ u
      simp only [userScore] at hstep ⊢
      rw [hstep, getScore_bumpScore]
      by_cases hu : e.userId = u
      · simp [sumDeltasFor, hu]
        ring
      · have : ¬ (u = e.userId) := fun h => hu h.symm
        simp [sumDeltasFor, hu]

theorem IdCoherent.of_cons {e : SEvent} {l : List SEvent}
    (h : IdCoherent (e :: l)) : IdCoherent l := by
  intro a ha b hb hab
  exact h a (List.mem_cons_of_mem _ ha) b (List.mem_cons_of_mem _ hb) hab

theorem mem_appliedEvents {l : List SEvent} (hc : IdCoherent l) :
    ∀ (seen : List String) (x : SEvent),
      x ∈ appliedEvents seen l ↔ x ∈ l ∧ x.eventId ∉ seen := by
  induction l with
  | nil => intro seen x; simp [appliedEvents]
  | cons e rest ih =>
    intro seen x
    have hrest := ih (hc.of_cons)
    by_cases hmem : e.eventId ∈ seen
    · simp only [appliedEvents, if_pos hmem]
      rw [hrest seen x]
      constructor
      · rintro ⟨hx, hns⟩
        exact ⟨List.mem_cons_of_mem _ hx, hns⟩
      · rintro ⟨hx, hns⟩
        rcases List.mem_cons.mp hx with h | h
        · subst h; exact absurd hmem hns
        · exact ⟨h, hns⟩
    · simp only [appliedEvents, if_neg hmem, List.mem_cons]
      rw [hrest (e.eventId :: seen) x]
      constructor
      · rintro (h | ⟨hx, hns⟩)
        · subst h; exact ⟨Or.inl rfl, hmem⟩
        · refine ⟨Or.inr hx, ?_⟩
          intro hs
          exact hns (List.mem_cons_of_mem _ hs)
      · rintro ⟨h | hx, hns⟩
        · exact Or.inl h
        · by_cases hid : x.eventId = e.eventId
          · left
            exact hc x (List.mem_cons_of_mem _ hx) e (List.mem_cons_self _ _) hid
          · right
            refine ⟨hx, ?_⟩
            intro hs
            rcases List.mem_cons.mp hs with h' | h'
            · exact hid h'
            · exact hns h'

theorem appliedEvents_ids_nodup :
    ∀ (l : List SEvent) (seen : List String),
      ((appliedEvents seen l).map SEvent.eventId).Nodup ∧
      ∀ i ∈ (appliedEvents seen l).map SEvent.eventId, i ∉ seen := by
  intro l
  induction l with
  | nil => intro seen; simp [appliedEvents]
  | cons e rest ih =>
    intro seen
    by_cases hmem : e.eventId ∈ seen
    · simpa [appliedEvents, if_pos hmem] using ih seen
    · have h := ih (e.eventId :: seen)
      simp only [appliedEvents, if_neg hmem, List.map_cons, List.nodup_cons,
        List.mem_cons]
      refine ⟨⟨?_, h.1⟩, ?_⟩
      · intro hin
        exact (h.2 _ hin) (List.mem_cons_self _ _)
      · rintro i (hi | hi)
        · subst hi; exact hmem
        · intro hs
          exact (h.2 i hi) (List.mem_cons_of_mem _ hs)

theorem appliedEvents_nodup (l : List SEvent) (seen : List String) :
    (appliedEvents seen l).Nodup :=
  List.Nodup.of_map _ (appliedEvents_ids_nodup l seen).1

theorem IdCoherent.of_perm {l l' : List SEvent} (hp : l.Perm l')
    (hc : IdCoherent l) : IdCoherent l' := by
  intro a ha b hb hab
  exact hc a (hp.mem_iff.mpr ha) b (hp.mem_iff.mpr hb) hab

theorem appliedEvents_perm {l l' : List SEvent} (hp : l.Perm l')
    (hc : IdCoherent l) :
    (appliedEvents [] l).Perm (appliedEvents [] l') := by
  rw [List.perm_ext_iff_of_nodup (appliedEvents_nodup l [])
    (appliedEvents_nodup l' [])]
  intro x
  rw [mem_appliedEvents hc [] x, mem_appliedEvents (hc.of_perm hp) [] x]
  simp [hp.mem_iff]

theorem sumDeltasFor_perm {l l' : List SEvent} (hp : l.Perm l') (u : String) :
    sumDeltasFor u l = sumDeltasFor u l' :=
  List.Perm.sum_eq (List.Perm.map _ (List.Perm.filter _ hp))

/-- C1: starting from the empty store, a user's final `UserScore.score`
after processing a batch of accepted events equals the sum of the deltas of
the distinct (non-duplicate) applied events for that user, and any
reordering (any interleaving of the concurrent arrivals) of an id-coherent
batch yields the same final score. -/
theorem final_score_eq_sum_of_distinct_deltas (l l' : List SEvent)
    (u : String) (hp : l.Perm l') (hc : IdCoherent l) :
    userScore (processAll Store.init l) u =
      sumDeltasFor u (appliedEvents [] l) ∧
    userScore (processAll Store.init l') u =
      userScore (processAll Store.init l) u := by
  have h1 := userScore_processAll l Store.init u
  have h2 := userScore_processAll l' Store.init u
  have hz : userScore Store.init u = 0 := rfl
  rw [hz] at h1 h2
  simp only [zero_add] at h1 h2
  refine ⟨h1, ?_⟩
  rw [h1, h2]
  exact (sumDeltasFor_perm (appliedEvents_perm hp hc) u).symm

/-- Witness for C1: the batch `[e1(A,+5), e2(A,+7), e1(A,+5), e3(B,+2)]`
processed in two different orders gives user `A` the score `12 = 5 + 7`,
the duplicate `e1` counted once. -/
theorem final_score_witness :
    userScore (processAll Store.init
        [⟨"e1", "A", 5⟩, ⟨"e2", "A", 7⟩, ⟨"e1", "A", 5⟩, ⟨"e3", "B", 2⟩]) "A" =
      sumDeltasFor "A" (appliedEvents []
        [⟨"e1", "A", 5⟩, ⟨"e2", "A", 7⟩, ⟨"e1", "A", 5⟩, ⟨"e3", "B", 2⟩]) ∧
    userScore (processAll Store.init
        [⟨"e3", "B", 2⟩, ⟨"e1", "A", 5⟩, ⟨"e2", "A", 7⟩, ⟨"e1", "A", 5⟩]) "A" =
      userScore (processAll Store.init
        [⟨"e1", "A", 5⟩, ⟨"e2", "A", 7⟩, ⟨"e1", "A", 5⟩, ⟨"e3", "B", 2⟩]) "A" :=
  final_score_eq_sum_of_distinct_deltas
    [⟨"e1", "A", 5⟩, ⟨"e2", "A", 7⟩, ⟨"e1", "A", 5⟩, ⟨"e3", "B", 2⟩]
    [⟨"e3", "B", 2⟩, ⟨"e1", "A", 5⟩, ⟨"e2", "A", 7⟩, ⟨"e1", "A", 5⟩]
    "A" (by decide) (by unfold IdCoherent; decide)

theorem lookupLedger_head (n : String) (v : ℤ) (l : List (String × ℤ)) :
    lookupLedger ((n, v) :: l) n = some v := by
  simp [lookupLedger, List.find?]

/-- C2: a submission accepted once is idempotent — resubmitting the same
action identifier leaves the state untouched (the delta is applied at most
once) and returns the distinguished `duplicate` outcome carrying the same
`newScore` the first submission computed, not an error. -/
theorem duplicate_submission_idempotent (cfg : Config) (now : ℤ)
    (req : Request) (s s1 : SysState) (eid : String) (ns : ℤ)
    (h : submit cfg now req s = (.accepted eid ns, s1)) :
    submit cfg now req s1 = (.duplicate ns, s1) := by
  unfold submit at h ⊢
  by_cases h1 : req.token.sigValid = true
  · rw [if_pos h1] at h ⊢
    by_cases h2 : now ≤ req.token.exp + cfg.leeway
    · rw [if_pos h2] at h ⊢
      by_cases h3 : req.token.sub = req.caller
      · rw [if_pos h3] at h ⊢
        by_cases h4 : 0 < req.delta ∧ req.delta < cfg.cap
        · rw [if_pos h4] at h ⊢
          by_cases h5 : req.delta ≤ req.token.deltaCap
          · rw [if_pos h5] at h ⊢
            cases hl : lookupLedger s.ledger req.token.nonce with
            | some prev => rw [hl] at h; simp at h
            | none =>
              rw [hl] at h
              by_cases h6 : getCount s.used req.caller < cfg.rateLimit
              · rw [if_pos h6] at h
                injection h with hfst hsnd
                injection hfst with heid hns
                subst hns
                subst hsnd
                simp only [lookupLedger_head]
              · simp [h6] at h
          · simp [h5] at h
        · simp [h4] at h
      · simp [h3] at h
    · simp [h2] at h
  · simp [h1] at h

/-- Witness for C2: a first submission of delta 10 by user `A` with nonce
`n1` is accepted with new score 10; resubmitting it against the resulting
state returns `duplicate 10` and leaves the state untouched. -/
theorem duplicate_submission_witness :
    submit ⟨1000000, 5, 60⟩ 100 ⟨"A", 10, ⟨"A", "n1", 120, 50, true⟩⟩
        ⟨[("n1", 10)], ⟨[("A", 10)], ["n1"]⟩, [("A", 1)]⟩ =
      (.duplicate 10, ⟨[("n1", 10)], ⟨[("A", 10)], ["n1"]⟩, [("A", 1)]⟩) :=
  duplicate_submission_idempotent ⟨1000000, 5, 60⟩ 100
    ⟨"A", 10, ⟨"A", "n1", 120, 50, true⟩⟩ ⟨[], Store.init, []⟩
    ⟨[("n1", 10)], ⟨[("A", 10)], ["n1"]⟩, [("A", 1)]⟩ "n1" 10 (by decide)

/-- C6: a request whose delta violates the strict bound
`0 < delta < cap` (the SQL `CHECK (delta > 0 AND delta < 1000000)`) is never
accepted: it is rejected as a request failure before any mutation, the
state unchanged. -/
theorem out_of_bound_delta_rejected (cfg : Config) (now : ℤ) (req : Request)
    (s : SysState) (h : ¬ (0 < req.delta ∧ req.delta < cfg.cap)) :
    (submit cfg now req s).1.isReject = true ∧
    (submit cfg now req s).2 = s ∧
    ∀ eid ns, (submit cfg now req s).1 ≠ .accepted eid ns := by
  have hcase : submit cfg now req s = (.validationError, s) ∨
      submit cfg now req s = (.authError, s) := by
    unfold submit
    by_cases h1 : req.token.sigValid = true
    · by_cases h2 : now ≤ req.token.exp + cfg.leeway
      · by_cases h3 : req.token.sub = req.caller
        · left; rw [if_pos h1, if_pos h2, if_pos h3, if_neg h]
        · right; rw [if_pos h1, if_pos h2, if_neg h3]
      · right; rw [if_pos h1, if_neg h2]
    · right; rw [if_neg h1]
  rcases hcase with heq | heq <;> rw [heq] <;>
    exact ⟨rfl, rfl, fun eid ns hh => Outcome.noConfusion hh⟩

/-- Witness for C6 at the boundary `delta = cap = 1000000`: the request is
rejected and the state is unchanged. -/
theorem out_of_bound_delta_witness :
    (submit ⟨1000000, 5, 60⟩ 100
        ⟨"A", 1000000, ⟨"A", "n1", 120, 2000000, true⟩⟩
        ⟨[], Store.init, []⟩).1.isReject = true ∧
    (submit ⟨1000000, 5, 60⟩ 100
        ⟨"A", 1000000, ⟨"A", "n1", 120, 2000000, true⟩⟩
        ⟨[], Store.init, []⟩).2 = ⟨[], Store.init, []⟩ ∧
    ∀ eid ns,
      (submit ⟨1000000, 5, 60⟩ 100
          ⟨"A", 1000000, ⟨"A", "n1", 120, 2000000, true⟩⟩
          ⟨[], Store.init, []⟩).1 ≠ .accepted eid ns :=
  out_of_bound_delta_rejected ⟨1000000, 5, 60⟩ 100
    ⟨"A", 1000000, ⟨"A", "n1", 120, 2000000, true⟩⟩
    ⟨[], Store.init, []⟩ (by decide)

/-- C7: a request whose proof-of-action token expired more than the leeway
ago is rejected with `AuthError` and the system state is completely
unchanged — no `ScoreEvent` row, no score change, nothing reaches the
Score Store Adapter. -/
theorem expired_token_rejected (cfg : Config) (now : ℤ) (req : Request)
    (s : SysState) (h : req.token.exp + cfg.leeway < now) :
    submit cfg now req s = (.authError, s) := by
  unfold submit
  by_cases h1 : req.token.sigValid = true
  · rw [if_pos h1, if_neg (not_le.mpr h)]
  · rw [if_neg h1]

/-- Witness for C7: expiry 10 seconds in the past with a 5-second leeway
(`now = 100`, `exp = 90`) is rejected with `AuthError`, state unchanged. -/
theorem expired_token_witness :
    submit ⟨1000000, 5, 60⟩ 100 ⟨"A", 10, ⟨"A", "n1", 90, 50, true⟩⟩
        ⟨[], Store.init, []⟩ =
      (.authError, ⟨[], Store.init, []⟩) :=
  expired_token_rejected ⟨1000000, 5, 60⟩ 100
    ⟨"A", 10, ⟨"A", "n1", 90, 50, true⟩⟩ ⟨[], Store.init, []⟩ (by decide)

/-- C4: the versions of the snapshots emitted into the broadcast stream are
exactly the consecutive integers starting right after the initial version —
strictly increasing, every version exactly once, none skipped, none
repeated — and the final cache version is the initial one plus the number
of emissions. -/
theorem version_stream_consecutive (K : ℕ) (st : CacheState)
    (us : List (String × ℤ)) :
    ((cacheRun K st us).2.map TopKSnapshot.version) =
      List.range' (st.snap.version + 1) (cacheRun K st us).2.length ∧
    ((cacheRun K st us).2.map TopKSnapshot.version).Pairwise (· < ·) ∧
    (cacheRun K st us).1.snap.version =
      st.snap.version + (cacheRun K st us).2.length := by
  have main : ∀ (l : List (String × ℤ)) (s : CacheState),
      ((cacheRun K s l).2.map TopKSnapshot.version) =
        List.range' (s.snap.version + 1) (cacheRun K s l).2.length ∧
      (cacheRun K s l).1.snap.version =
        s.snap.version + (cacheRun K s l).2.length := by
    intro l
    induction l with
    | nil => intro s; simp [cacheRun]
    | cons upd rest ih =>
      intro s
      by_cases hch : topK K (setScore s.scores upd.1 upd.2) = s.snap.entries
      · have hstep : cacheStep K s upd = (⟨setScore s.scores upd.1 upd.2, s.snap⟩, none) := by
          unfold cacheStep
          rw [if_pos hch]
        have h := ih ⟨setScore s.scores upd.1 upd.2, s.snap⟩
        simp only [cacheRun, hstep, Option.toList, List.nil_append]
        exact h
      · have hstep : cacheStep K s upd =
            (⟨setScore s.scores upd.1 upd.2, ⟨s.snap.version + 1, topK K (setScore s.scores upd.1 upd.2)⟩⟩,
              some ⟨s.snap.version + 1, topK K (setScore s.scores upd.1 upd.2)⟩) := by
          unfold cacheStep
          rw [if_neg hch]
        have h := ih ⟨setScore s.scores upd.1 upd.2, ⟨s.snap.version + 1, topK K (setScore s.scores upd.1 upd.2)⟩⟩
        simp only [cacheRun, hstep, Option.toList, List.singleton_append,
          List.map_cons, List.length_cons] at h ⊢
        rw [List.range'_succ]
        refine ⟨?_, ?_⟩
        · rw [h.1]
        · rw [h.2]
          omega

  have h := main us st
  refine ⟨h.1, ?_, h.2⟩
  rw [h.1]
  exact List.pairwise_lt_range' _ _

/-- C5: `diff` is a pure function of its two snapshot arguments (it is a
function of exactly those arguments by construction), and when the two
versions coincide it returns the empty Diff — empty removed set, empty
added list, empty moved list — the signal that no broadcast is needed. -/
theorem diff_same_version_empty (prev cur : TopKSnapshot)
    (h : prev.version = cur.version) :
    diff prev cur = ⟨prev.version, cur.version, [], [], []⟩ ∧
    (diff prev cur).isEmpty = true := by
  unfold diff
  rw [if_pos h]
  exact ⟨rfl, rfl⟩

/-- Witness for C5 at two concrete equal-version snapshots. -/
theorem diff_same_version_witness :
    diff ⟨7, [("A", 100)]⟩ ⟨7, [("A", 101)]⟩ = ⟨7, 7, [], [], []⟩ ∧
    (diff ⟨7, [("A", 100)]⟩ ⟨7, [("A", 101)]⟩).isEmpty = true :=
  diff_same_version_empty ⟨7, [("A", 100)]⟩ ⟨7, [("A", 101)]⟩ rfl

/-- Counterexample to C3 as stated: with `prev = v1 [A:100, B:90]` and
`cur = v2 [B:105, A:100]` (user B gained 15 points and overtook A), the
Diff records only the rank swap — `moved` carries no scores — so applying
it to `prev` cannot restore B's new score and does not reproduce `cur`.
Worse, `cur' = v2 [B:106, A:100]` yields the *same* Diff while differing
from `cur`, so no application function of `(prev, Diff)` whatsoever can
satisfy the round-trip law. -/
theorem diff_roundtrip_counterexample :
    applyDiff ⟨1, [("A", 100), ("B", 90)]⟩
        (diff ⟨1, [("A", 100), ("B", 90)]⟩ ⟨2, [("B", 105), ("A", 100)]⟩) ≠
      ⟨2, [("B", 105), ("A", 100)]⟩ ∧
    diff ⟨1, [("A", 100), ("B", 90)]⟩ ⟨2, [("B", 105), ("A", 100)]⟩ =
      diff ⟨1, [("A", 100), ("B", 90)]⟩ ⟨2, [("B", 106), ("A", 100)]⟩ ∧
    (⟨2, [("B", 105), ("A", 100)]⟩ : TopKSnapshot) ≠
      ⟨2, [("B", 106), ("A", 100)]⟩ := by
  refine ⟨by decide, by decide, by decide⟩

theorem zipRanksAux_map_fst (l : List (String × ℤ)) :
    ∀ k, (zipRanksAux k l).map (fun c => c.1) = List.range' k l.length := by
  induction l with
  | nil => intro k; simp [zipRanksAux]
  | cons e rest ih =>
    intro k
    simp [zipRanksAux, List.range'_succ, ih]

theorem zipRanksAux_map_user (l : List (String × ℤ)) :
    ∀ k, (zipRanksAux k l).map (fun c => c.2.1) = l.map Prod.fst := by
  induction l with
  | nil => intro k; simp [zipRanksAux]
  | cons e rest ih => intro k; simp [zipRanksAux, ih]

theorem zipRanksAux_strip (l : List (String × ℤ)) :
    ∀ k, (zipRanksAux k l).map (fun c => (c.2.1, c.2.2)) = l := by
  induction l with
  | nil => intro k; simp [zipRanksAux]
  | cons e rest ih => intro k; simp [zipRanksAux, ih]

theorem zipRanks_pairwise_lt (l : List (String × ℤ)) :
    (zipRanks l).Pairwise rankLT := by
  have h : ((zipRanks l).map (fun c => c.1)).Pairwise (· < ·) := by
    rw [zipRanks, zipRanksAux_map_fst]
    exact List.pairwise_lt_range' _ _
  have h2 : (zipRanks l).Pairwise (fun a b => a.1 < b.1) :=
    List.pairwise_map.mp h
  exact h2

theorem zipRanks_nodup (l : List (String × ℤ)) : (zipRanks l).Nodup :=
  (zipRanks_pairwise_lt l).imp (fun h heq => by
    rw [heq] at h; exact Nat.lt_irrefl _ h)

theorem zipRanks_user_nodup {l : List (String × ℤ)}
    (h : (l.map Prod.fst).Nodup) :
    ((zipRanks l).map (fun c => c.2.1)).Nodup := by
  rw [zipRanks, zipRanksAux_map_user]
  exact h

theorem mem_snapUsers_iff {s : TopKSnapshot} {u : String} :
    u ∈ snapUsers s ↔ ∃ c ∈ zipRanks s.entries, c.2.1 = u := by
  rw [snapUsers, ← zipRanksAux_map_user s.entries 1]
  simp [zipRanks, List.mem_map]

theorem find?_key_of_mem {l : List (ℕ × String × ℤ)}
    (hk : (l.map (fun c => c.2.1)).Nodup) {x : ℕ × String × ℤ} (hx : x ∈ l) :
    l.find? (fun c => decide (c.2.1 = x.2.1)) = some x := by
  induction l with
  | nil => cases hx
  | cons a t ih =>
    simp only [List.map_cons, List.nodup_cons] at hk
    rcases List.mem_cons.mp hx with rfl | hxt
    · simp [List.find?_cons]
    · have hne : a.2.1 ≠ x.2.1 := by
        intro he
        exact hk.1 (he ▸ List.mem_map_of_mem _ hxt)
      rw [List.find?_cons]
      simp only [hne, decide_False]
      exact ih hk.2 hxt

theorem find?_key_eq_none {l : List (ℕ × String × ℤ)} {u : String}
    (h : u ∉ l.map (fun c => c.2.1)) :
    l.find? (fun c => decide (c.2.1 = u)) = none := by
  rw [List.find?_eq_none]
  intro x hx
  simp only [decide_eq_true_eq]
  intro he
  exact h (he ▸ List.mem_map_of_mem _ hx)

theorem find?_filterMap_keyed
    (g : (ℕ × String × ℤ) → Option (String × ℕ × ℕ))
    (hg : ∀ c m, g c = some m → m.1 = c.2.1) :
    ∀ (L : List (ℕ × String × ℤ)), ((L.map (fun c => c.2.1)).Nodup) →
      ∀ {c : ℕ × String × ℤ}, c ∈ L →
      (L.filterMap g).find? (fun m => decide (m.1 = c.2.1)) = g c := by
  intro L
  induction L with
  | nil => intro _ c hc; cases hc
  | cons a t ih =>
    intro hk c hc
    simp only [List.map_cons, List.nodup_cons] at hk
    rw [List.filterMap_cons]
    rcases List.mem_cons.mp hc with rfl | hct
    · cases hga : g c with
      | none =>
        apply List.find?_eq_none.mpr
        intro m hm
        simp only [decide_eq_true_eq]
        obtain ⟨x, hx, hgx⟩ := List.mem_filterMap.mp hm
        intro he
        exact hk.1 ((hg x m hgx ▸ he) ▸ List.mem_map_of_mem _ hx)
      | some m =>
        show (m :: t.filterMap g).find? (fun m2 => decide (m2.1 = c.2.1)) =
          some m
        rw [List.find?_cons]
        simp [hg c m hga]
    · have hne : a.2.1 ≠ c.2.1 := by
        intro he
        exact hk.1 (he ▸ List.mem_map_of_mem _ hct)
      cases hga : g a with
      | none =>
        exact ih hk.2 hct
      | some m =>
        show (m :: t.filterMap g).find? (fun m2 => decide (m2.1 = c.2.1)) =
          g c
        rw [List.find?_cons]
        have hm1 : m.1 = a.2.1 := hg a m hga
        simp only [hm1, hne, decide_False]
        exact ih hk.2 hct

theorem movedOf_key {prev : TopKSnapshot} :
    ∀ c m, movedOf prev c = some m → m.1 = c.2.1 := by
  intro c m h
  unfold movedOf at h
  cases hr : rankOf prev c.2.1 with
  | none => rw [hr] at h; cases h
  | some r =>
    rw [hr] at h
    have h2 : (if r ≠ c.1 then some (c.2.1, r, c.1) else none) = some m := h
    by_cases hne : r ≠ c.1
    · rw [if_pos hne] at h2
      cases h2
      rfl
    · rw [if_neg hne] at h2
      cases h2

theorem rerankEntry_eq {prev cur : TopKSnapshot}
    (h1 : (snapUsers prev).Nodup) (h2 : (snapUsers cur).Nodup)
    (hs : ∀ u, u ∈ snapUsers prev → u ∈ snapUsers cur →
      scoreOf prev u = scoreOf cur u)
    {e : ℕ × String × ℤ} (heP : e ∈ zipRanks prev.entries)
    {c : ℕ × String × ℤ} (hcC : c ∈ zipRanks cur.entries)
    (hkey : c.2.1 = e.2.1) :
    rerankEntry ((zipRanks cur.entries).filterMap (movedOf prev)) e = c := by
  have hkP : ((zipRanks prev.entries).map (fun x => x.2.1)).Nodup :=
    zipRanks_user_nodup h1
  have hkC : ((zipRanks cur.entries).map (fun x => x.2.1)).Nodup :=
    zipRanks_user_nodup h2
  have hfind := find?_filterMap_keyed (movedOf prev) movedOf_key
    (zipRanks cur.entries) hkC hcC
  have hrank : rankOf prev e.2.1 = some e.1 := by
    unfold rankOf
    rw [find?_key_of_mem hkP heP]
    rfl
  have hscoreP : scoreOf prev e.2.1 = some e.2.2 := by
    unfold scoreOf
    rw [find?_key_of_mem hkP heP]
    rfl
  have hscoreC : scoreOf cur e.2.1 = some c.2.2 := by
    unfold scoreOf
    rw [← hkey, find?_key_of_mem hkC hcC]
    rfl
  have heuP : e.2.1 ∈ snapUsers prev := mem_snapUsers_iff.mpr ⟨e, heP, rfl⟩
  have heuC : e.2.1 ∈ snapUsers cur := mem_snapUsers_iff.mpr ⟨c, hcC, hkey⟩
  have hsc : e.2.2 = c.2.2 := by
    have h := hs e.2.1 heuP heuC
    rw [hscoreP, hscoreC] at h
    exact Option.some.inj h
  unfold rerankEntry
  rw [hkey] at hfind
  rw [hfind]
  unfold movedOf
  rw [hkey, hrank]
  show (match (if e.1 ≠ c.1 then some (e.2.1, e.1, c.1) else none) with
    | some m => ((m.2.2 : ℕ), e.2.1, e.2.2)
    | none => e) = c
  by_cases hr : e.1 = c.1
  · rw [if_neg (not_not_intro hr)]
    show e = c
    simp only [Prod.ext_iff]
    exact ⟨hr, hkey.symm, hsc⟩
  · rw [if_pos hr]
    show (c.1, e.2.1, e.2.2) = c
    simp only [Prod.ext_iff]
    exact ⟨trivial, hkey.symm, hsc⟩

theorem perm_sorted_eq_zipRanks {L : List (ℕ × String × ℤ)}
    {l : List (String × ℤ)} (hp : L.Perm (zipRanks l)) :
    List.insertionSort rankLE L = zipRanks l := by
  have hpermS := (List.perm_insertionSort rankLE L).trans hp
  have hsorted : (List.insertionSort rankLE L).Pairwise rankLE :=
    List.sorted_insertionSort rankLE L
  have hranksnd : ((List.insertionSort rankLE L).map (fun c => c.1)).Nodup := by
    rw [(hpermS.map (fun c => c.1)).nodup_iff, zipRanks, zipRanksAux_map_fst]
    exact (List.pairwise_lt_range' _ _).imp Nat.ne_of_lt
  have hne : (List.insertionSort rankLE L).Pairwise (fun a b => a.1 ≠ b.1) :=
    List.pairwise_map.mp hranksnd
  have hlt : List.Sorted rankLT (List.insertionSort rankLE L) :=
    (List.Pairwise.and hsorted hne).imp (fun h => Nat.lt_of_le_of_ne h.1 h.2)
  exact List.eq_of_perm_of_sorted hpermS hlt (zipRanks_pairwise_lt l)

/-- C3 (amended): applying `diff(previous, current)` to the `previous`
snapshot reproduces the `current` snapshot exactly, provided every user
present in both snapshots carries the same score in both (the Diff format
cannot transport score changes of retained members, see the
counterexample); snapshots are assumed well-formed (no duplicate members)
and of distinct versions, as consecutive published snapshots are. -/
theorem diff_roundtrip_amended (prev cur : TopKSnapshot)
    (h1 : (snapUsers prev).Nodup) (h2 : (snapUsers cur).Nodup)
    (hv : prev.version ≠ cur.version)
    (hs : ∀ u, u ∈ snapUsers prev → u ∈ snapUsers cur →
      scoreOf prev u = scoreOf cur u) :
    applyDiff prev (diff prev cur) = cur := by
  have hkP : ((zipRanks prev.entries).map (fun x => x.2.1)).Nodup :=
    zipRanks_user_nodup h1
  have hkC : ((zipRanks cur.entries).map (fun x => x.2.1)).Nodup :=
    zipRanks_user_nodup h2
  have hd : diff prev cur = ⟨prev.version, cur.version,
      (snapUsers prev).filter (fun u => decide (u ∉ snapUsers cur)),
      (zipRanks cur.entries).filter (fun c => decide (c.2.1 ∉ snapUsers prev)),
      (zipRanks cur.entries).filterMap (movedOf prev)⟩ := by
    unfold diff
    rw [if_neg hv]
  have hkept : (zipRanks prev.entries).filter
      (fun c => decide (c.2.1 ∉ (snapUsers prev).filter
        (fun u => decide (u ∉ snapUsers cur)))) =
      (zipRanks prev.entries).filter
        (fun c => decide (c.2.1 ∈ snapUsers cur)) := by
    apply List.filter_congr
    intro c hcP
    have hcu : c.2.1 ∈ snapUsers prev := mem_snapUsers_iff.mpr ⟨c, hcP, rfl⟩
    rw [decide_eq_decide]
    constructor
    · intro hnr
      by_contra hnc
      exact hnr (List.mem_filter.mpr ⟨hcu, by simpa using hnc⟩)
    · intro hc hmem
      have hm := List.mem_filter.mp hmem
      exact (by simpa using hm.2 : c.2.1 ∉ snapUsers cur) hc
  have hpoint : ∀ e ∈ (zipRanks prev.entries).filter
      (fun c => decide (c.2.1 ∈ snapUsers cur)),
      ∃ c ∈ zipRanks cur.entries, c.2.1 = e.2.1 ∧
        rerankEntry ((zipRanks cur.entries).filterMap (movedOf prev)) e = c := by
    intro e he
    have hm := List.mem_filter.mp he
    have hecur : e.2.1 ∈ snapUsers cur := by simpa using hm.2
    obtain ⟨c, hcC, hkey⟩ := mem_snapUsers_iff.mp hecur
    exact ⟨c, hcC, hkey, rerankEntry_eq h1 h2 hs hm.1 hcC hkey⟩
  have hkeysKept : (((zipRanks prev.entries).filter
      (fun c => decide (c.2.1 ∈ snapUsers cur))).map (fun x => x.2.1)).Nodup :=
    ((List.filter_sublist _).map _).nodup hkP
  have hmapkeys : ((((zipRanks prev.entries).filter
      (fun c => decide (c.2.1 ∈ snapUsers cur))).map
      (rerankEntry ((zipRanks cur.entries).filterMap (movedOf prev)))).map
      (fun x => x.2.1)) =
      (((zipRanks prev.entries).filter
        (fun c => decide (c.2.1 ∈ snapUsers cur))).map (fun x => x.2.1)) := by
    rw [List.map_map]
    apply List.map_congr_left
    intro e he
    obtain ⟨c, hcC, hkey, hre⟩ := hpoint e he
    show (rerankEntry ((zipRanks cur.entries).filterMap (movedOf prev)) e).2.1
      = e.2.1
    rw [hre]
    exact hkey
  have hnd1 : ((((zipRanks prev.entries).filter
      (fun c => decide (c.2.1 ∈ snapUsers cur))).map
      (rerankEntry ((zipRanks cur.entries).filterMap (movedOf prev))))).Nodup :=
    List.Nodup.of_map (fun x => x.2.1) (by rw [hmapkeys]; exact hkeysKept)
  have hnd2 : ((zipRanks cur.entries).filter
      (fun c => decide (c.2.1 ∈ snapUsers prev))).Nodup :=
    (List.filter_sublist _).nodup (zipRanks_nodup _)
  have hmemiff : ∀ x, (x ∈ ((zipRanks prev.entries).filter
        (fun c => decide (c.2.1 ∈ snapUsers cur))).map
        (rerankEntry ((zipRanks cur.entries).filterMap (movedOf prev)))) ↔
      x ∈ (zipRanks cur.entries).filter
        (fun c => decide (c.2.1 ∈ snapUsers prev)) := by
    intro x
    constructor
    · intro hx
      obtain ⟨e, he, hfx⟩ := List.mem_map.mp hx
      obtain ⟨c, hcC, hkey, hre⟩ := hpoint e he
      have heP := (List.mem_filter.mp he).1
      have hxc : x = c := by rw [← hfx, hre]
      subst hxc
      apply List.mem_filter.mpr
      refine ⟨hcC, ?_⟩
      simp only [decide_eq_true_eq]
      rw [hkey]
      exact mem_snapUsers_iff.mpr ⟨e, heP, rfl⟩
    · intro hx
      have hm := List.mem_filter.mp hx
      have hxP : x.2.1 ∈ snapUsers prev := by simpa using hm.2
      obtain ⟨e, heP, hekey⟩ := mem_snapUsers_iff.mp hxP
      have heK : e ∈ (zipRanks prev.entries).filter
          (fun c => decide (c.2.1 ∈ snapUsers cur)) := by
        apply List.mem_filter.mpr
        refine ⟨heP, ?_⟩
        simp only [decide_eq_true_eq]
        rw [hekey]
        exact mem_snapUsers_iff.mpr ⟨x, hm.1, rfl⟩
      obtain ⟨c, hcC, hkey, hre⟩ := hpoint e heK
      have hcx : c = x := by
        have hfc := find?_key_of_mem hkC hcC
        have hfx2 := find?_key_of_mem hkC hm.1
        rw [hkey, hekey] at hfc
        exact Option.some.inj (hfc.symm.trans hfx2)
      exact List.mem_map.mpr ⟨e, heK, by rw [hre, hcx]⟩
  have hperm1 := (List.perm_ext_iff_of_nodup hnd1 hnd2).mpr hmemiff
  have hpred : ((zipRanks cur.entries).filter
      (fun c => decide (c.2.1 ∉ snapUsers prev))) =
      ((zipRanks cur.entries).filter
        (fun c => !(decide (c.2.1 ∈ snapUsers prev)))) := by
    apply List.filter_congr
    intro c _
    exact decide_not
  have hperm2 : ((((zipRanks prev.entries).filter
        (fun c => decide (c.2.1 ∈ snapUsers cur))).map
        (rerankEntry ((zipRanks cur.entries).filterMap (movedOf prev)))) ++
      ((zipRanks cur.entries).filter
        (fun c => decide (c.2.1 ∉ snapUsers prev)))).Perm
      (zipRanks cur.entries) := by
    rw [hpred]
    exact (hperm1.append_right _).trans
      (List.filter_append_perm
        (fun c : ℕ × String × ℤ => decide (c.2.1 ∈ snapUsers prev)) _)
  have hfinal := perm_sorted_eq_zipRanks hperm2
  rw [hd]
  show (⟨cur.version,
    (List.insertionSort rankLE
        (((zipRanks prev.entries).filter
            (fun c => decide (c.2.1 ∉ (snapUsers prev).filter
              (fun u => decide (u ∉ snapUsers cur))))).map
            (rerankEntry ((zipRanks cur.entries).filterMap (movedOf prev))) ++
          (zipRanks cur.entries).filter
            (fun c => decide (c.2.1 ∉ snapUsers prev)))).map
      (fun c => (c.2.1, c.2.2))⟩ : TopKSnapshot) = cur
  rw [hkept, hfinal]
  show (⟨cur.version,
    (zipRanks cur.entries).map (fun c => (c.2.1, c.2.2))⟩ : TopKSnapshot) = cur
  rw [zipRanks, zipRanksAux_strip]

/-- Witness for the amended C3: `prev = v1 [A:100, B:90]`,
`cur = v2 [C:120, A:100]` — B leaves, C enters at rank 1, A moves from
rank 1 to rank 2 with its score unchanged — and applying the Diff to
`prev` reproduces `cur` exactly. -/
theorem diff_roundtrip_witness :
    applyDiff ⟨1, [("A", 100), ("B", 90)]⟩
        (diff ⟨1, [("A", 100), ("B", 90)]⟩ ⟨2, [("C", 120), ("A", 100)]⟩) =
      ⟨2, [("C", 120), ("A", 100)]⟩ :=
  diff_roundtrip_amended ⟨1, [("A", 100), ("B", 90)]⟩
    ⟨2, [("C", 120), ("A", 100)]⟩ (by decide) (by decide) (by decide)
    (by decide)

end Leaderboard

namespace Problem4

/-- C8: the three implementations `sum_to_n_a`, `sum_to_n_b`, `sum_to_n_c`
are extensionally equal on every JavaScript number, and each throws
`TypeError` exactly when the argument is not a finite number. -/
theorem sum_to_n_extensionally_equal (x : JSNum) :
    sum_to_n_a x = sum_to_n_b x ∧ sum_to_n_b x = sum_to_n_c x ∧
    (threw (sum_to_n_a x) = true ↔ x.isFinite = false) ∧
    (threw (sum_to_n_b x) = true ↔ x.isFinite = false) ∧
    (threw (sum_to_n_c x) = true ↔ x.isFinite = false) := by
  cases x with
  | num q =>
    by_cases hq : q ≤ 0
    · simp [sum_to_n_a, sum_to_n_b, sum_to_n_c, hq, threw, JSNum.isFinite]
    · have hfl : (0:ℤ) ≤ ⌊q⌋ := by
        have : (0:ℚ) < q := lt_of_not_le hq
        exact Int.floor_nonneg.mpr (le_of_lt this)
      have hcast : ((⌊q⌋.toNat : ℤ) : ℚ) = (⌊q⌋ : ℚ) := by
        rw [Int.toNat_of_nonneg hfl]
      have hc : (loopSum (⌊q⌋.toNat) : ℚ) = (⌊q⌋ : ℚ) * ((⌊q⌋ : ℚ) + 1) / 2 := by
        rw [loopSum_closed]
        push_cast at hcast ⊢
        rw [hcast]
      simp [sum_to_n_a, sum_to_n_b, sum_to_n_c, hq, threw, JSNum.isFinite,
        helper_eq_loopSum, hc]
  | nan => simp [sum_to_n_a, sum_to_n_b, sum_to_n_c, threw, JSNum.isFinite]
  | posInf => simp [sum_to_n_a, sum_to_n_b, sum_to_n_c, threw, JSNum.isFinite]
  | negInf => simp [sum_to_n_a, sum_to_n_b, sum_to_n_c, threw, JSNum.isFinite]

/-- C9: for finite `n ≤ 0` all three implementations return `0`; for a
positive integer `n` each returns `n * (n + 1) / 2`. -/
theorem sum_to_n_values (q : ℚ) (n : ℤ) :
    (q ≤ 0 →
      sum_to_n_a (.num q) = .ok 0 ∧ sum_to_n_b (.num q) = .ok 0 ∧
      sum_to_n_c (.num q) = .ok 0) ∧
    (0 < n →
      sum_to_n_a (.num (n : ℚ)) = .ok ((n : ℚ) * ((n : ℚ) + 1) / 2) ∧
      sum_to_n_b (.num (n : ℚ)) = .ok ((n : ℚ) * ((n : ℚ) + 1) / 2) ∧
      sum_to_n_c (.num (n : ℚ)) = .ok ((n : ℚ) * ((n : ℚ) + 1) / 2)) := by
  constructor
  · intro hq
    simp [sum_to_n_a, sum_to_n_b, sum_to_n_c, hq]
  · intro hn
    have hq : ¬ ((n : ℚ) ≤ 0) := by
      simp only [not_le]
      exact_mod_cast hn
    have hfl : ⌊(n : ℚ)⌋ = n := Int.floor_intCast n
    have hnn : (0:ℤ) ≤ n := le_of_lt hn
    have hcast : ((⌊(n:ℚ)⌋.toNat : ℤ) : ℚ) = (n : ℚ) := by
      rw [hfl, Int.toNat_of_nonneg hnn]
    have hc : (loopSum (⌊(n:ℚ)⌋.toNat) : ℚ) = (n : ℚ) * ((n : ℚ) + 1) / 2 := by
      rw [loopSum_closed]
      push_cast at hcast ⊢
      rw [hcast]
    rw [hfl] at hc
    refine ⟨?_, ?_, ?_⟩
    · simp [sum_to_n_a, hq, hc]
    · simp [sum_to_n_b, hq, helper_eq_loopSum, hc]
    · simp [sum_to_n_c, hq, hfl]

/-- Witness for C9 at `q = -3` and `n = 5`: all three return `0` at `-3`
and `15` at `5`. -/
theorem sum_to_n_values_witness :
    (sum_to_n_a (.num (-3)) = .ok 0 ∧ sum_to_n_b (.num (-3)) = .ok 0 ∧
      sum_to_n_c (.num (-3)) = .ok 0) ∧
    (sum_to_n_a (.num ((5:ℤ) : ℚ)) = .ok 15 ∧ sum_to_n_b (.num ((5:ℤ) : ℚ)) = .ok 15 ∧
      sum_to_n_c (.num ((5:ℤ) : ℚ)) = .ok 15) := by
  have h := sum_to_n_values (-3) 5
  have h1 := h.1 (by norm_num)
  have h2 := h.2 (by norm_num)
  norm_num at h2
  exact ⟨h1, h2⟩

end Problem4

namespace Problem5

/-- C10: `GET /books/:id` responds `404 { message: 'Book not found' }`
exactly when no book with that id exists, responds `200` with the stored
book otherwise, and the store is unchanged in either case. -/
theorem getBook_spec (db : Store) (i : String) :
    (getBookHandler db i).2 = db ∧
    ((getBookHandler db i).1.status = 404 ↔ getById db i = none) ∧
    (match getById db i with
     | none => (getBookHandler db i).1 = ⟨404, .message "Book not found"⟩
     | some b => (getBookHandler db i).1 = ⟨200, .book b⟩) := by
  cases h : getById db i <;> simp [getBookHandler, h]

end Problem5
